import Mathlib

set_option maxRecDepth 4000

/-!
Verification development for the Ethr-DID lifecycle manager.

The repository's own file (src/src/example.ts) is a driver script: it builds an
EthrDID from environment configuration, resolves it, changes its owner and sets
attributes through the external ethr-did / ethr-did-resolver libraries, and
embeds the ERC-1056 registry ABI (events DIDOwnerChanged / DIDDelegateChanged /
DIDAttributeChanged with a previousChange back pointer, functions changeOwner,
addDelegate, setAttribute, nonce, changed, ...).  The registry state machine,
the event-history walker and the DID state reducer are therefore modelled here
from the specification, while the environment-fallback wiring of example.ts is
translated directly from the source.
-/

namespace EthrDid

/-- Modelled from the spec (§3 Data model, registry ABI events in example.ts):
a registry event is one of `DIDOwnerChanged{identity, owner, previousChange}`,
`DIDDelegateChanged{identity, delegateType, delegate, validTo, previousChange}`,
`DIDAttributeChanged{identity, name, value, validTo, previousChange}`.
Addresses and block heights are modelled as `Nat`, names and values as
`String`. -/
inductive Event where
  | ownerChanged (identity owner previousChange : Nat)
  | delegateChanged (identity : Nat) (delegateType : String)
      (delegate validTo previousChange : Nat)
  | attributeChanged (identity : Nat) (name value : String)
      (validTo previousChange : Nat)
deriving DecidableEq, Repr

/-- The identity an event belongs to. -/
def Event.identity : Event → Nat
  | .ownerChanged i _ _ => i
  | .delegateChanged i _ _ _ _ => i
  | .attributeChanged i _ _ _ _ => i

/-- The `previousChange` back pointer carried by every event. -/
def Event.previousChange : Event → Nat
  | .ownerChanged _ _ p => p
  | .delegateChanged _ _ _ _ p => p
  | .attributeChanged _ _ _ _ p => p

/-- The validity bound carried by delegate and attribute events
(owner events carry none; `0` is returned for them). -/
def Event.validTo : Event → Nat
  | .ownerChanged _ _ _ => 0
  | .delegateChanged _ _ _ v _ => v
  | .attributeChanged _ _ _ v _ => v

/-- Modelled from the spec (§3, §4.1, registry ABI in example.ts): the mutable
registry storage — explicit owner (`none` means self-owned), the per-identity
change pointer (`0` means no history), the per-identity meta-transaction nonce,
and the delegate validity table (`delegates` view of the ABI). -/
structure RegistryState where
  owners : Nat → Option Nat
  changed : Nat → Nat
  nonces : Nat → Nat
  delegates : Nat → String → Nat → Nat

/-- Modelled from the spec (§3): an identity defaults to being self-owned;
`identityOwner` returns the recorded owner when one exists and the identity
itself otherwise. -/
def identityOwner (s : RegistryState) (id : Nat) : Nat :=
  (s.owners id).getD id

/-- Modelled from the spec (§2, §5): the on-chain world visible to the core —
registry storage, the event log as a newest-first list of
(block height, event) pairs, the current block height and the current time.
Each mutating call is mined in its own fresh block (spec §5: one transaction
per block-height slot per identity). -/
structure Chain where
  state : RegistryState
  log : List (Nat × Event)
  height : Nat
  time : Nat

/-- A chain with no history at all, at a given starting height and time. -/
def genesis (h0 t0 : Nat) : Chain :=
  { state :=
      { owners := fun _ => none
        changed := fun _ => 0
        nonces := fun _ => 0
        delegates := fun _ _ _ => 0 }
    log := []
    height := h0
    time := t0 }

/-- Modelled from the spec (§4.2): fetch all events recorded at exactly block
height `h` for identity `id`. -/
def eventsAt (log : List (Nat × Event)) (id h : Nat) : List Event :=
  match log with
  | [] => []
  | (b, e) :: rest =>
      if b = h ∧ e.identity = id then e :: eventsAt rest id h
      else eventsAt rest id h

/-- Modelled from the spec (§4.2): the minimum `previousChange` among a batch
of fetched events; `0` when the batch is empty. -/
def minPrev (evs : List Event) : Nat :=
  match evs.map Event.previousChange with
  | [] => 0
  | x :: xs => xs.foldl Nat.min x

/-- Modelled from the spec (§4.2, §7): resolution errors; the walker reports
`historyTruncated` when the hop limit is hit before the chain's origin. -/
inductive ResolveError where
  | historyTruncated
deriving DecidableEq, Repr

/-- Modelled from the spec (§4.2 Event History Walker): follow the
`previousChange` pointers from `cursor`, fetching the events at each visited
block height, until the cursor is zero or the hop budget `fuel` is exhausted;
in the latter case fail with `HistoryTruncatedError` instead of returning the
partial history.  The collected history is newest-first. -/
def walkAux (log : List (Nat × Event)) (id : Nat) (cursor fuel : Nat)
    (acc : List Event) : Except ResolveError (List Event) :=
  if cursor = 0 then .ok acc
  else
    match fuel with
    | 0 => .error .historyTruncated
    | fuel' + 1 =>
        let evs := eventsAt log id cursor
        walkAux log id (minPrev evs) fuel' (acc ++ evs)

/-- Modelled from the spec (§4.2): walk an identity's history starting from its
current change pointer, with hop budget `maxHops`. -/
def walkHistory (c : Chain) (id maxHops : Nat) : Except ResolveError (List Event) :=
  walkAux c.log id (c.state.changed id) maxHops []

/-- Modelled from the spec (§3 Invariants): a well-formed pointer chain for one
identity — from a nonzero cursor there is exactly one event recorded at that
height for the identity, its `previousChange` is strictly smaller, and the
chain below it is again well formed.  Strict decrease makes the chain
acyclic. -/
inductive ValidChain (log : List (Nat × Event)) (id : Nat) : Nat → Prop where
  | zero : ValidChain log id 0
  | step (h : Nat) (e : Event) : h ≠ 0 → eventsAt log id h = [e] →
      e.previousChange < h → ValidChain log id e.previousChange →
      ValidChain log id h

theorem walkAux_zero (log : List (Nat × Event)) (id fuel : Nat) (acc : List Event) :
    walkAux log id 0 fuel acc = .ok acc := by
  rw [walkAux.eq_def]
  simp

theorem walkAux_out_of_fuel (log : List (Nat × Event)) (id c : Nat) (acc : List Event)
    (hc : c ≠ 0) : walkAux log id c 0 acc = .error .historyTruncated := by
  rw [walkAux.eq_def]
  simp [hc]

theorem walkAux_total (log : List (Nat × Event)) (id c fuel : Nat) (acc : List Event) :
    (∃ h, walkAux log id c fuel acc = .ok h) ∨
      walkAux log id c fuel acc = .error .historyTruncated := by
  cases hr : walkAux log id c fuel acc with
  | ok h => exact Or.inl ⟨h, rfl⟩
  | error e => cases e; exact Or.inr rfl

theorem walkAux_ok_of_validChain (log : List (Nat × Event)) (id : Nat) :
    ∀ c : Nat, ValidChain log id c → ∀ fuel : Nat, c ≤ fuel →
      ∀ acc : List Event, ∃ t, walkAux log id c fuel acc = .ok (acc ++ t) := by
  intro c hv
  induction hv with
  | zero =>
      intro fuel _ acc
      exact ⟨[], by simp [walkAux_zero]⟩
  | step h e hne hevs hlt _ ih =>
      intro fuel hfuel acc
      match fuel, hfuel with
      | fuel' + 1, hfuel =>
          have hprev : e.previousChange ≤ fuel' :=
            Nat.le_of_lt_succ (Nat.lt_of_lt_of_le hlt hfuel)
          obtain ⟨t, ht⟩ := ih fuel' hprev (acc ++ [e])
          refine ⟨[e] ++ t, ?_⟩
          rw [walkAux.eq_def, if_neg hne]
          simp only [hevs]
          have hmin : minPrev [e] = e.previousChange := rfl
          rw [hmin, ht, List.append_assoc]
      | 0, hfuel =>
          exact absurd hfuel (by omega)

/-- Modelled from the spec (§4.3): the reducer's working state — the current
owner and the kept delegate/attribute mappings keyed by (type, delegate) and
(name, value) respectively, each carrying its `validTo` bound. -/
structure DocState where
  owner : Nat
  delegates : List ((String × Nat) × Nat)
  attributes : List ((String × String) × Nat)
deriving DecidableEq, Repr

/-- Remove every entry with the given key from an association list. -/
def removeKey {α β : Type} [DecidableEq α] (k : α) : List (α × β) → List (α × β)
  | [] => []
  | (k', v) :: rest =>
      if k' = k then removeKey k rest else (k', v) :: removeKey k rest

/-- Override the entry at a key: later events win for the same key. -/
def setKey {α β : Type} [DecidableEq α] (k : α) (v : β) (m : List (α × β)) :
    List (α × β) :=
  (k, v) :: removeKey k m

/-- Modelled from the spec (§4.3 DID State Reducer): apply one event against
the fixed reduction clock `now`.  An `OwnerChanged` overwrites the owner; a
`DelegateChanged` or `AttributeChanged` is kept (overriding any earlier entry
for the same key) only when `now < validTo`, and otherwise drops the entry as
expired or revoked. -/
def applyEvent (now : Nat) (st : DocState) (e : Event) : DocState :=
  match e with
  | .ownerChanged _ o _ => { st with owner := o }
  | .delegateChanged _ t d v _ =>
      if now < v then { st with delegates := setKey (t, d) v st.delegates }
      else { st with delegates := removeKey (t, d) st.delegates }
  | .attributeChanged _ n val v _ =>
      if now < v then { st with attributes := setKey (n, val) v st.attributes }
      else { st with attributes := removeKey (n, val) st.attributes }

/-- Modelled from the spec (§4.3): fold an oldest-first event sequence into a
document state, starting from the default self-owned state of `id`. -/
def reduceEvents (id : Nat) (evs : List Event) (now : Nat) : DocState :=
  evs.foldl (applyEvent now) { owner := id, delegates := [], attributes := [] }

/-- Split a character list at every slash. -/
def splitSlash : List Char → List (List Char)
  | [] => [[]]
  | c :: rest =>
      let r := splitSlash rest
      if c = '/' then [] :: r
      else
        match r with
        | [] => [[c]]
        | g :: gs => (c :: g) :: gs

/-- Modelled from the spec (§6 attribute naming convention): where an
attribute belongs in the document. -/
inductive AttrRoute where
  | publicKey (keyAlgo purpose encoding : String)
  | service (name : String)
  | other
deriving DecidableEq, Repr

/-- Modelled from the spec (§6): parse an attribute name —
`did/pub/<KeyAlgo>/<Purpose>/<Encoding>` routes to the verification-method
section and `did/svc/<ServiceName>` to the service section; anything else is
left unrouted. -/
def routeAttr (name : String) : AttrRoute :=
  match splitSlash name.data with
  | [a, b, s] =>
      if a = "did".data ∧ b = "svc".data then .service (String.mk s)
      else .other
  | [a, b, alg, purpose, enc] =>
      if a = "did".data ∧ b = "pub".data then
        .publicKey (String.mk alg) (String.mk purpose) (String.mk enc)
      else .other
  | _ => .other

/-- Modelled from the spec (§6): a service entry of the DID document. -/
structure Service where
  name : String
  endpoint : String
deriving DecidableEq, Repr

/-- Modelled from the spec (§6): a verification-method entry — the owner key,
one entry per active delegate, or one entry per active `did/pub/...`
attribute. -/
inductive VerificationMethod where
  | ownerKey (owner : Nat)
  | delegateKey (delegateType : String) (delegate : Nat)
  | attributeKey (keyAlgo purpose encoding value : String)
deriving DecidableEq, Repr

/-- Modelled from the spec (§3, §6): the derived DID document — owner, active
delegates, active attributes, and the routed service and verification-method
sections. -/
structure DIDDocument where
  owner : Nat
  delegates : List (String × Nat)
  attributes : List (String × String)
  services : List Service
  verificationMethods : List VerificationMethod
deriving DecidableEq, Repr

/-- Modelled from the spec (§4.3 output, §6): project a reduced document state
into the DID document, routing each kept attribute by its name. -/
def buildDocument (st : DocState) : DIDDocument :=
  { owner := st.owner
    delegates := st.delegates.map Prod.fst
    attributes := st.attributes.map Prod.fst
    services := st.attributes.filterMap fun p =>
      match routeAttr p.1.1 with
      | .service s => some ⟨s, p.1.2⟩
      | _ => none
    verificationMethods :=
      VerificationMethod.ownerKey st.owner ::
        (st.delegates.map fun p => VerificationMethod.delegateKey p.1.1 p.1.2) ++
          st.attributes.filterMap fun p =>
            match routeAttr p.1.1 with
            | .publicKey alg purpose enc =>
                some (VerificationMethod.attributeKey alg purpose enc p.1.2)
            | _ => none }

/-- Modelled from the spec (§4.5 Resolver Facade): walk the identity's history
from its change pointer, reverse it to oldest-first, reduce it against the
fixed clock `now`, and project the document. -/
def resolve (c : Chain) (id maxHops now : Nat) : Except ResolveError DIDDocument :=
  match walkHistory c id maxHops with
  | .error e => .error e
  | .ok newestFirst => .ok (buildDocument (reduceEvents id newestFirst.reverse now))

/-- The owner field of a successful resolution. -/
def resolveOwner (c : Chain) (id maxHops now : Nat) : Option Nat :=
  match resolve c id maxHops now with
  | .ok d => some d.owner
  | .error _ => none

/-- The service list of a successful resolution. -/
def resolveServices (c : Chain) (id maxHops now : Nat) : Option (List Service) :=
  match resolve c id maxHops now with
  | .ok d => some d.services
  | .error _ => none

/-- The default self-owned document of an identity with no history. -/
def emptyDocument (id : Nat) : DIDDocument :=
  { owner := id
    delegates := []
    attributes := []
    services := []
    verificationMethods := [VerificationMethod.ownerKey id] }

/-- Modelled from the spec (§4.4, glossary): an off-chain signature for a
meta-transaction, abstracted as the recovered signer together with the nonce
the signature covers — the signature is over a canonical hash of the identity,
the operation parameters and that nonce, so a given `Sig` is bound to one
payload. -/
structure Sig where
  signer : Nat
  nonce : Nat
deriving DecidableEq, Repr

/-- Modelled from the spec (§4.4 Identity Controller, registry ABI in
example.ts): the mutating operations, each with its plain and its relayed
("Signed") variant. -/
inductive Op where
  | changeOwner (signer identity newOwner : Nat)
  | changeOwnerSigned (identity newOwner : Nat) (sig : Sig)
  | addDelegate (signer identity : Nat) (delegateType : String) (delegate validity : Nat)
  | addDelegateSigned (identity : Nat) (delegateType : String) (delegate validity : Nat) (sig : Sig)
  | revokeDelegate (signer identity : Nat) (delegateType : String) (delegate : Nat)
  | revokeDelegateSigned (identity : Nat) (delegateType : String) (delegate : Nat) (sig : Sig)
  | setAttribute (signer identity : Nat) (name value : String) (validity : Nat)
  | setAttributeSigned (identity : Nat) (name value : String) (validity : Nat) (sig : Sig)
  | revokeAttribute (signer identity : Nat) (name value : String)
  | revokeAttributeSigned (identity : Nat) (name value : String) (sig : Sig)
deriving DecidableEq, Repr

/-- The identity an operation mutates. -/
def Op.identityOf : Op → Nat
  | .changeOwner _ id _ => id
  | .changeOwnerSigned id _ _ => id
  | .addDelegate _ id _ _ _ => id
  | .addDelegateSigned id _ _ _ _ => id
  | .revokeDelegate _ id _ _ => id
  | .revokeDelegateSigned id _ _ _ => id
  | .setAttribute _ id _ _ _ => id
  | .setAttributeSigned id _ _ _ _ => id
  | .revokeAttribute _ id _ _ => id
  | .revokeAttributeSigned id _ _ _ => id

/-- The relayed signature of an operation, when it is a "Signed" variant. -/
def Op.sigOf : Op → Option Sig
  | .changeOwnerSigned _ _ s => some s
  | .addDelegateSigned _ _ _ _ s => some s
  | .revokeDelegateSigned _ _ _ s => some s
  | .setAttributeSigned _ _ _ _ s => some s
  | .revokeAttributeSigned _ _ _ s => some s
  | _ => none

/-- The transaction sender of a plain (non-relayed) operation. -/
def Op.actorOf : Op → Nat
  | .changeOwner a _ _ => a
  | .addDelegate a _ _ _ _ => a
  | .revokeDelegate a _ _ _ => a
  | .setAttribute a _ _ _ _ => a
  | .revokeAttribute a _ _ _ => a
  | .changeOwnerSigned _ _ s => s.signer
  | .addDelegateSigned _ _ _ _ s => s.signer
  | .revokeDelegateSigned _ _ _ s => s.signer
  | .setAttributeSigned _ _ _ _ s => s.signer
  | .revokeAttributeSigned _ _ _ s => s.signer

/-- Modelled from the spec (§4.1, §7): transaction-level failures — the
contract reverting with a reason (unauthorized actor, bad signature, stale
nonce). -/
inductive TxError where
  | contractRevert (reason : String)
deriving DecidableEq, Repr

/-- Modelled from the spec (§3, §4.4): the event an operation emits — its
`previousChange` is the identity's change pointer immediately before the
operation is applied, add operations carry `validTo = time + validity`, a
delegate revocation carries the current time and an attribute revocation
carries `0`. -/
def eventFor (c : Chain) (op : Op) : Event :=
  let prev := c.state.changed op.identityOf
  match op with
  | .changeOwner _ id o => .ownerChanged id o prev
  | .changeOwnerSigned id o _ => .ownerChanged id o prev
  | .addDelegate _ id t d v => .delegateChanged id t d (c.time + v) prev
  | .addDelegateSigned id t d v _ => .delegateChanged id t d (c.time + v) prev
  | .revokeDelegate _ id t d => .delegateChanged id t d c.time prev
  | .revokeDelegateSigned id t d _ => .delegateChanged id t d c.time prev
  | .setAttribute _ id n val v => .attributeChanged id n val (c.time + v) prev
  | .setAttributeSigned id n val v _ => .attributeChanged id n val (c.time + v) prev
  | .revokeAttribute _ id n val => .attributeChanged id n val 0 prev
  | .revokeAttributeSigned id n val _ => .attributeChanged id n val 0 prev

/-- Modelled from the spec (§3, §4.4): the registry-storage update an
operation performs (ownership and the delegate validity table; attributes
live only in the event log). -/
def stateUpdate (c : Chain) (op : Op) (s : RegistryState) : RegistryState :=
  match op with
  | .changeOwner _ id o =>
      { s with owners := fun i => if i = id then some o else s.owners i }
  | .changeOwnerSigned id o _ =>
      { s with owners := fun i => if i = id then some o else s.owners i }
  | .addDelegate _ id t d v =>
      { s with delegates := fun i ty de =>
          if i = id ∧ ty = t ∧ de = d then c.time + v else s.delegates i ty de }
  | .addDelegateSigned id t d v _ =>
      { s with delegates := fun i ty de =>
          if i = id ∧ ty = t ∧ de = d then c.time + v else s.delegates i ty de }
  | .revokeDelegate _ id t d =>
      { s with delegates := fun i ty de =>
          if i = id ∧ ty = t ∧ de = d then c.time else s.delegates i ty de }
  | .revokeDelegateSigned id t d _ =>
      { s with delegates := fun i ty de =>
          if i = id ∧ ty = t ∧ de = d then c.time else s.delegates i ty de }
  | _ => s

/-- Modelled from the spec (§3, §4.4): the chain after a successful operation
— the storage update plus, atomically, the change pointer advanced to the
fresh block in which the emitted event is mined. -/
def applyOp (c : Chain) (op : Op) : Chain :=
  let h := c.height + 1
  let s := stateUpdate c op c.state
  { state := { s with changed := fun i => if i = op.identityOf then h else s.changed i }
    log := (h, eventFor c op) :: c.log
    height := h
    time := c.time + 1 }

/-- Increment the per-identity meta-transaction nonce. -/
def bumpNonce (id : Nat) (c : Chain) : Chain :=
  { c with state := { c.state with nonces := fun i =>
      if i = id then c.state.nonces i + 1 else c.state.nonces i } }

/-- Modelled from the spec (§4.4): the chain a successful operation produces —
a signed variant additionally increments the nonce its signature consumed. -/
def stepResult (c : Chain) (op : Op) : Chain :=
  match op.sigOf with
  | none => applyOp c op
  | some _ => bumpNonce op.identityOf (applyOp c op)

/-- Modelled from the spec (§4.1, §4.4): submit one operation.  A plain call
requires the transaction sender to be the identity's current owner; a signed
variant requires the signature's nonce to be the identity's current nonce and
its recovered signer to be the current owner.  Violations revert instead of
being applied. -/
def step (c : Chain) (op : Op) : Except TxError Chain :=
  match op.sigOf with
  | none =>
      if op.actorOf = identityOwner c.state op.identityOf then .ok (stepResult c op)
      else .error (.contractRevert "bad_actor")
  | some s =>
      if s.nonce = c.state.nonces op.identityOf then
        if s.signer = identityOwner c.state op.identityOf then .ok (stepResult c op)
        else .error (.contractRevert "bad_signature")
      else .error (.contractRevert "bad nonce")

theorem Event.identity_eventFor (c : Chain) (op : Op) :
    (eventFor c op).identity = op.identityOf := by
  cases op <;> rfl

theorem Event.previousChange_eventFor (c : Chain) (op : Op) :
    (eventFor c op).previousChange = c.state.changed op.identityOf := by
  cases op <;> rfl

theorem stateUpdate_changed (c : Chain) (op : Op) (s : RegistryState) :
    (stateUpdate c op s).changed = s.changed := by
  cases op <;> rfl

theorem eventsAt_eq_nil (log : List (Nat × Event)) (id h : Nat)
    (hb : ∀ p ∈ log, p.1 ≠ h) : eventsAt log id h = [] := by
  induction log with
  | nil => rfl
  | cons p rest ih =>
      obtain ⟨b, e⟩ := p
      have hstep : eventsAt ((b, e) :: rest) id h =
          if b = h ∧ e.identity = id then e :: eventsAt rest id h
          else eventsAt rest id h := rfl
      rw [hstep, if_neg fun hc => hb (b, e) (List.mem_cons_self _ _) hc.1]
      exact ih fun p hp => hb p (List.mem_cons_of_mem _ hp)

theorem eventsAt_cons_ne (b : Nat) (e : Event) (log : List (Nat × Event)) (id h : Nat)
    (hne : ¬(b = h ∧ e.identity = id)) :
    eventsAt ((b, e) :: log) id h = eventsAt log id h := by
  have hstep : eventsAt ((b, e) :: log) id h =
      if b = h ∧ e.identity = id then e :: eventsAt log id h
      else eventsAt log id h := rfl
  rw [hstep, if_neg hne]

theorem ValidChain.mono (log log2 : List (Nat × Event)) (id : Nat) :
    ∀ cur : Nat, ValidChain log id cur →
      (∀ h, h ≠ 0 → h ≤ cur → eventsAt log2 id h = eventsAt log id h) →
      ValidChain log2 id cur := by
  intro cur hv
  induction hv with
  | zero => exact fun _ => .zero
  | step h e hne hevs hlt _ ih =>
      intro hyp
      exact .step h e hne (by rw [hyp h hne le_rfl]; exact hevs) hlt
        (ih fun h' hne' hle' => hyp h' hne' (le_trans hle' (le_of_lt hlt)))

/-- Modelled from the spec (§3 Invariants): the preserved well-formedness of a
chain — every logged block is positive and at most the current height, every
identity's pointer chain is well formed (acyclic, strictly decreasing), and
every change pointer is at most the current height. -/
structure ChainInv (c : Chain) : Prop where
  blocks : ∀ p ∈ c.log, 0 < p.1 ∧ p.1 ≤ c.height
  valid : ∀ id, ValidChain c.log id (c.state.changed id)
  bound : ∀ id, c.state.changed id ≤ c.height

theorem genesis_inv (h0 t0 : Nat) : ChainInv (genesis h0 t0) :=
  { blocks := fun p hp => absurd hp (List.not_mem_nil p)
    valid := fun _ => .zero
    bound := fun _ => Nat.zero_le _ }

theorem applyOp_changed (c : Chain) (op : Op) (i : Nat) :
    (applyOp c op).state.changed i =
      if i = op.identityOf then c.height + 1 else c.state.changed i := by
  have hstep : (applyOp c op).state.changed i =
      if i = op.identityOf then c.height + 1
      else (stateUpdate c op c.state).changed i := rfl
  rw [hstep, stateUpdate_changed]

theorem eventsAt_applyOp_top (c : Chain) (op : Op) (hinv : ChainInv c) :
    eventsAt (applyOp c op).log op.identityOf (c.height + 1) = [eventFor c op] := by
  have hlog : (applyOp c op).log = (c.height + 1, eventFor c op) :: c.log := rfl
  have hstep : eventsAt ((c.height + 1, eventFor c op) :: c.log) op.identityOf (c.height + 1) =
      if c.height + 1 = c.height + 1 ∧ (eventFor c op).identity = op.identityOf then
        eventFor c op :: eventsAt c.log op.identityOf (c.height + 1)
      else eventsAt c.log op.identityOf (c.height + 1) := rfl
  rw [hlog, hstep, if_pos ⟨rfl, Event.identity_eventFor c op⟩,
    eventsAt_eq_nil c.log op.identityOf (c.height + 1)
      fun p hp => Nat.ne_of_lt (Nat.lt_succ_of_le (hinv.blocks p hp).2)]

theorem eventsAt_applyOp_low (c : Chain) (op : Op) (id h : Nat)
    (hlow : (eventFor c op).identity ≠ id ∨ h ≤ c.height) :
    eventsAt (applyOp c op).log id h = eventsAt c.log id h := by
  have hlog : (applyOp c op).log = (c.height + 1, eventFor c op) :: c.log := rfl
  rw [hlog, eventsAt_cons_ne]
  rintro ⟨hb, hi⟩
  rcases hlow with hlow | hlow
  · exact hlow hi
  · omega

theorem validChain_applyOp_prev (c : Chain) (op : Op) (hinv : ChainInv c) :
    ValidChain (applyOp c op).log op.identityOf (c.state.changed op.identityOf) := by
  refine ValidChain.mono c.log _ _ _ (hinv.valid op.identityOf) ?_
  intro h _ hle
  exact eventsAt_applyOp_low c op _ h
    (Or.inr (le_trans hle (hinv.bound op.identityOf)))

theorem inv_applyOp (c : Chain) (op : Op) (hinv : ChainInv c) :
    ChainInv (applyOp c op) := by
  refine ⟨?_, ?_, ?_⟩
  · intro p hp
    have hlog : (applyOp c op).log = (c.height + 1, eventFor c op) :: c.log := rfl
    rw [hlog] at hp
    rcases List.mem_cons.1 hp with hp | hp
    · subst hp; exact ⟨Nat.succ_pos _, le_rfl⟩
    · exact ⟨(hinv.blocks p hp).1, le_trans (hinv.blocks p hp).2 (Nat.le_succ _)⟩
  · intro i
    rw [applyOp_changed]
    by_cases hi : i = op.identityOf
    · rw [if_pos hi, hi]
      refine ValidChain.step (c.height + 1) (eventFor c op) (Nat.succ_ne_zero _)
        (eventsAt_applyOp_top c op hinv) ?_ ?_
      · rw [Event.previousChange_eventFor]
        exact Nat.lt_succ_of_le (hinv.bound op.identityOf)
      · rw [Event.previousChange_eventFor]
        exact validChain_applyOp_prev c op hinv
    · rw [if_neg hi]
      refine ValidChain.mono c.log _ i _ (hinv.valid i) ?_
      intro h _ hle
      exact eventsAt_applyOp_low c op i h
        (Or.inl (by rw [Event.identity_eventFor]; exact fun he => hi he.symm))
  · intro i
    rw [applyOp_changed]
    by_cases hi : i = op.identityOf
    · rw [if_pos hi]; exact le_rfl
    · rw [if_neg hi]
      exact le_trans (hinv.bound i) (Nat.le_succ _)

theorem inv_bumpNonce (id : Nat) (c : Chain) (hinv : ChainInv c) :
    ChainInv (bumpNonce id c) :=
  ⟨hinv.blocks, hinv.valid, hinv.bound⟩

theorem inv_stepResult (c : Chain) (op : Op) (hinv : ChainInv c) :
    ChainInv (stepResult c op) := by
  rw [stepResult]
  cases op.sigOf with
  | none => exact inv_applyOp c op hinv
  | some s => exact inv_bumpNonce _ _ (inv_applyOp c op hinv)

theorem mem_removeKey {α β : Type} [DecidableEq α] (k : α) (m : List (α × β)) (p : α × β) :
    p ∈ removeKey k m ↔ p ∈ m ∧ p.1 ≠ k := by
  induction m with
  | nil => simp [removeKey]
  | cons q rest ih =>
      obtain ⟨k', v⟩ := q
      have hstep : removeKey k ((k', v) :: rest) =
          if k' = k then removeKey k rest else (k', v) :: removeKey k rest := rfl
      by_cases hk : k' = k
      · subst hk
        rw [hstep, if_pos rfl, ih]
        simp only [List.mem_cons]
        constructor
        · rintro ⟨hm, hne⟩; exact ⟨Or.inr hm, hne⟩
        · rintro ⟨hm | hm, hne⟩
          · exact absurd (by rw [hm]) hne
          · exact ⟨hm, hne⟩
      · rw [hstep, if_neg hk]
        simp only [List.mem_cons, ih]
        constructor
        · rintro (hp | ⟨hm, hne⟩)
          · refine ⟨Or.inl hp, ?_⟩; rw [hp]; exact hk
          · exact ⟨Or.inr hm, hne⟩
        · rintro ⟨hp | hm, hne⟩
          · exact Or.inl hp
          · exact Or.inr ⟨hm, hne⟩

theorem not_mem_removeKey_self {α β : Type} [DecidableEq α] (k : α) (m : List (α × β)) :
    ¬ ∃ v, (k, v) ∈ removeKey k m := by
  rintro ⟨v, hv⟩
  exact ((mem_removeKey k m (k, v)).1 hv).2 rfl

theorem exists_mem_setKey_self {α β : Type} [DecidableEq α] (k : α) (v0 : β)
    (m : List (α × β)) : ∃ v, (k, v) ∈ setKey k v0 m :=
  ⟨v0, List.mem_cons_self _ _⟩

theorem exists_mem_removeKey_ne {α β : Type} [DecidableEq α] (k k' : α) (m : List (α × β))
    (h : k ≠ k') : (∃ v, (k, v) ∈ removeKey k' m) ↔ ∃ v, (k, v) ∈ m := by
  constructor
  · rintro ⟨v, hv⟩; exact ⟨v, ((mem_removeKey k' m (k, v)).1 hv).1⟩
  · rintro ⟨v, hv⟩; exact ⟨v, (mem_removeKey k' m (k, v)).2 ⟨hv, h⟩⟩

theorem exists_mem_setKey_ne {α β : Type} [DecidableEq α] (k k' : α) (v0 : β)
    (m : List (α × β)) (h : k ≠ k') :
    (∃ v, (k, v) ∈ setKey k' v0 m) ↔ ∃ v, (k, v) ∈ m := by
  rw [setKey]
  constructor
  · rintro ⟨v, hv⟩
    rcases List.mem_cons.1 hv with hv | hv
    · exact absurd (congrArg Prod.fst hv) h
    · exact (exists_mem_removeKey_ne k k' m h).1 ⟨v, hv⟩
  · intro hm
    obtain ⟨v, hv⟩ := (exists_mem_removeKey_ne k k' m h).2 hm
    exact ⟨v, List.mem_cons_of_mem _ hv⟩

/-- Does an event speak about the delegate key (t, d)? -/
def isDelegateEvent (t : String) (d : Nat) : Event → Bool
  | .delegateChanged _ t2 d2 _ _ => decide (t2 = t ∧ d2 = d)
  | .ownerChanged _ _ _ => false
  | .attributeChanged _ _ _ _ _ => false

/-- Does an event speak about the attribute key (n, val)? -/
def isAttributeEvent (n val : String) : Event → Bool
  | .attributeChanged _ n2 v2 _ _ => decide (n2 = n ∧ v2 = val)
  | .ownerChanged _ _ _ => false
  | .delegateChanged _ _ _ _ _ => false

theorem delegates_applyEvent_ne (now : Nat) (st : DocState) (t : String) (d : Nat)
    (e : Event) (h : isDelegateEvent t d e = false) :
    (∃ v, ((t, d), v) ∈ (applyEvent now st e).delegates) ↔
      ∃ v, ((t, d), v) ∈ st.delegates := by
  cases e with
  | ownerChanged i o p => exact Iff.rfl
  | attributeChanged i n val v p =>
      by_cases hv : now < v
      · simp only [applyEvent, if_pos hv]
      · simp only [applyEvent, if_neg hv]
  | delegateChanged i t2 d2 v p =>
      have hne : ((t, d) : String × Nat) ≠ (t2, d2) := by
        intro hk
        simp only [isDelegateEvent, decide_eq_false_iff_not] at h
        exact h ⟨(congrArg Prod.fst hk).symm, (congrArg Prod.snd hk).symm⟩
      by_cases hv : now < v
      · simp only [applyEvent, if_pos hv]
        exact exists_mem_setKey_ne _ _ _ _ hne
      · simp only [applyEvent, if_neg hv]
        exact exists_mem_removeKey_ne _ _ _ hne

theorem attributes_applyEvent_ne (now : Nat) (st : DocState) (n val : String)
    (e : Event) (h : isAttributeEvent n val e = false) :
    (∃ v, ((n, val), v) ∈ (applyEvent now st e).attributes) ↔
      ∃ v, ((n, val), v) ∈ st.attributes := by
  cases e with
  | ownerChanged i o p => exact Iff.rfl
  | delegateChanged i t2 d2 v p =>
      by_cases hv : now < v
      · simp only [applyEvent, if_pos hv]
      · simp only [applyEvent, if_neg hv]
  | attributeChanged i n2 v2 v p =>
      have hne : ((n, val) : String × String) ≠ (n2, v2) := by
        intro hk
        simp only [isAttributeEvent, decide_eq_false_iff_not] at h
        exact h ⟨(congrArg Prod.fst hk).symm, (congrArg Prod.snd hk).symm⟩
      by_cases hv : now < v
      · simp only [applyEvent, if_pos hv]
        exact exists_mem_setKey_ne _ _ _ _ hne
      · simp only [applyEvent, if_neg hv]
        exact exists_mem_removeKey_ne _ _ _ hne

theorem delegates_foldl_ne (now : Nat) (t : String) (d : Nat) :
    ∀ (xs : List Event) (st : DocState),
      (∀ y ∈ xs, isDelegateEvent t d y = false) →
      ((∃ v, ((t, d), v) ∈ (xs.foldl (applyEvent now) st).delegates) ↔
        ∃ v, ((t, d), v) ∈ st.delegates) := by
  intro xs
  induction xs with
  | nil => exact fun st _ => Iff.rfl
  | cons x xs ih =>
      intro st hall
      rw [List.foldl_cons,
        ih (applyEvent now st x) fun y hy => hall y (List.mem_cons_of_mem _ hy)]
      exact delegates_applyEvent_ne now st t d x (hall x (List.mem_cons_self _ _))

theorem attributes_foldl_ne (now : Nat) (n val : String) :
    ∀ (xs : List Event) (st : DocState),
      (∀ y ∈ xs, isAttributeEvent n val y = false) →
      ((∃ v, ((n, val), v) ∈ (xs.foldl (applyEvent now) st).attributes) ↔
        ∃ v, ((n, val), v) ∈ st.attributes) := by
  intro xs
  induction xs with
  | nil => exact fun st _ => Iff.rfl
  | cons x xs ih =>
      intro st hall
      rw [List.foldl_cons,
        ih (applyEvent now st x) fun y hy => hall y (List.mem_cons_of_mem _ hy)]
      exact attributes_applyEvent_ne now st n val x (hall x (List.mem_cons_self _ _))

theorem delegates_last_decides (now : Nat) (t : String) (d : Nat) :
    ∀ (evs : List Event) (st : DocState) (e : Event),
      (evs.filter (isDelegateEvent t d)).getLast? = some e →
      ((∃ v, ((t, d), v) ∈ (evs.foldl (applyEvent now) st).delegates) ↔
        now < e.validTo) := by
  intro evs
  induction evs with
  | nil => intro st e h; simp at h
  | cons x xs ih =>
      intro st e h
      by_cases hp : isDelegateEvent t d x = true
      · rw [List.filter_cons_of_pos hp] at h
        cases hxs : xs.filter (isDelegateEvent t d) with
        | nil =>
            rw [hxs, List.getLast?_singleton, Option.some_inj] at h
            subst h
            have hnone : ∀ y ∈ xs, isDelegateEvent t d y = false := by
              intro y hy
              exact Bool.eq_false_iff.mpr (List.filter_eq_nil_iff.1 hxs y hy)
            rw [List.foldl_cons, delegates_foldl_ne now t d xs _ hnone]
            cases x with
            | ownerChanged i o p => exact Bool.false_ne_true hp |>.elim
            | attributeChanged i n2 v2 v p => exact Bool.false_ne_true hp |>.elim
            | delegateChanged i t2 d2 v p =>
                obtain ⟨rfl, rfl⟩ :=
                  of_decide_eq_true (by simp only [isDelegateEvent] at hp; exact hp)
                by_cases hv : now < v
                · simp only [applyEvent, if_pos hv]
                  exact iff_of_true (exists_mem_setKey_self _ _ _) hv
                · simp only [applyEvent, if_neg hv]
                  exact iff_of_false (not_mem_removeKey_self _ _) hv
        | cons y ys =>
            rw [hxs, List.getLast?_cons_cons] at h
            rw [List.foldl_cons]
            exact ih (applyEvent now st x) e (by rw [hxs]; exact h)
      · rw [List.filter_cons_of_neg (by exact hp)] at h
        rw [List.foldl_cons]
        exact ih (applyEvent now st x) e h

theorem attributes_last_decides (now : Nat) (n val : String) :
    ∀ (evs : List Event) (st : DocState) (e : Event),
      (evs.filter (isAttributeEvent n val)).getLast? = some e →
      ((∃ v, ((n, val), v) ∈ (evs.foldl (applyEvent now) st).attributes) ↔
        now < e.validTo) := by
  intro evs
  induction evs with
  | nil => intro st e h; simp at h
  | cons x xs ih =>
      intro st e h
      by_cases hp : isAttributeEvent n val x = true
      · rw [List.filter_cons_of_pos hp] at h
        cases hxs : xs.filter (isAttributeEvent n val) with
        | nil =>
            rw [hxs, List.getLast?_singleton, Option.some_inj] at h
            subst h
            have hnone : ∀ y ∈ xs, isAttributeEvent n val y = false := by
              intro y hy
              exact Bool.eq_false_iff.mpr (List.filter_eq_nil_iff.1 hxs y hy)
            rw [List.foldl_cons, attributes_foldl_ne now n val xs _ hnone]
            cases x with
            | ownerChanged i o p => exact Bool.false_ne_true hp |>.elim
            | delegateChanged i t2 d2 v p => exact Bool.false_ne_true hp |>.elim
            | attributeChanged i n2 v2 v p =>
                obtain ⟨rfl, rfl⟩ :=
                  of_decide_eq_true (by simp only [isAttributeEvent] at hp; exact hp)
                by_cases hv : now < v
                · simp only [applyEvent, if_pos hv]
                  exact iff_of_true (exists_mem_setKey_self _ _ _) hv
                · simp only [applyEvent, if_neg hv]
                  exact iff_of_false (not_mem_removeKey_self _ _) hv
        | cons y ys =>
            rw [hxs, List.getLast?_cons_cons] at h
            rw [List.foldl_cons]
            exact ih (applyEvent now st x) e (by rw [hxs]; exact h)
      · rw [List.filter_cons_of_neg (by exact hp)] at h
        rw [List.foldl_cons]
        exact ih (applyEvent now st x) e h

theorem stateUpdate_nonces (c : Chain) (op : Op) (s : RegistryState) :
    (stateUpdate c op s).nonces = s.nonces := by
  cases op <;> rfl

theorem splitSlash_no_slash (xs : List Char) (h : ('/' : Char) ∉ xs) :
    splitSlash xs = [xs] := by
  induction xs with
  | nil => rfl
  | cons c rest ih =>
      have hc : c ≠ '/' := fun hc => h (hc ▸ List.mem_cons_self _ _)
      have hrest : ('/' : Char) ∉ rest := fun hr => h (List.mem_cons_of_mem _ hr)
      have hstep : splitSlash (c :: rest) =
          if c = '/' then [] :: splitSlash rest
          else
            match splitSlash rest with
            | [] => [[c]]
            | g :: gs => (c :: g) :: gs := rfl
      rw [hstep, if_neg hc, ih hrest]

theorem splitSlash_append (xs ys : List Char) (h : ('/' : Char) ∉ xs) :
    splitSlash (xs ++ '/' :: ys) = xs :: splitSlash ys := by
  induction xs with
  | nil =>
      show splitSlash ('/' :: ys) = [] :: splitSlash ys
      have hstep : splitSlash ('/' :: ys) =
          if ('/' : Char) = '/' then [] :: splitSlash ys
          else
            match splitSlash ys with
            | [] => [['/']]
            | g :: gs => ('/' :: g) :: gs := rfl
      rw [hstep, if_pos rfl]
  | cons c rest ih =>
      have hc : c ≠ '/' := fun hc => h (hc ▸ List.mem_cons_self _ _)
      have hrest : ('/' : Char) ∉ rest := fun hr => h (List.mem_cons_of_mem _ hr)
      show splitSlash (c :: (rest ++ '/' :: ys)) = (c :: rest) :: splitSlash ys
      have hstep : splitSlash (c :: (rest ++ '/' :: ys)) =
          if c = '/' then [] :: splitSlash (rest ++ '/' :: ys)
          else
            match splitSlash (rest ++ '/' :: ys) with
            | [] => [[c]]
            | g :: gs => (c :: g) :: gs := rfl
      rw [hstep, if_neg hc, ih hrest]

theorem routeAttr_service (svc : String) (h : ('/' : Char) ∉ svc.data) :
    routeAttr ("did/svc/" ++ svc) = AttrRoute.service svc := by
  have hdata : ("did/svc/" ++ svc).data =
      ['d', 'i', 'd'] ++ '/' :: (['s', 'v', 'c'] ++ '/' :: svc.data) := by
    rw [String.data_append]
    rfl
  rw [routeAttr, hdata, splitSlash_append _ _ (by decide),
    splitSlash_append _ _ (by decide), splitSlash_no_slash _ h]
  rfl

theorem routeAttr_publicKey (alg purpose enc : String) (h1 : ('/' : Char) ∉ alg.data)
    (h2 : ('/' : Char) ∉ purpose.data) (h3 : ('/' : Char) ∉ enc.data) :
    routeAttr ("did/pub/" ++ alg ++ "/" ++ purpose ++ "/" ++ enc) =
      AttrRoute.publicKey alg purpose enc := by
  have hdata : ("did/pub/" ++ alg ++ "/" ++ purpose ++ "/" ++ enc).data =
      ['d', 'i', 'd'] ++ '/' ::
        (['p', 'u', 'b'] ++ '/' ::
          (alg.data ++ '/' :: (purpose.data ++ '/' :: enc.data))) := by
    simp only [String.data_append, List.append_assoc]
    rfl
  rw [routeAttr, hdata, splitSlash_append _ _ (by decide),
    splitSlash_append _ _ (by decide), splitSlash_append _ _ h1,
    splitSlash_append _ _ h2, splitSlash_no_slash _ h3]
  rfl

theorem mem_map_fst {α β : Type} (k : α) (m : List (α × β)) :
    k ∈ m.map Prod.fst ↔ ∃ v, (k, v) ∈ m := by
  rw [List.mem_map]
  constructor
  · rintro ⟨⟨a, b⟩, hm, rfl⟩; exact ⟨b, hm⟩
  · rintro ⟨v, hv⟩; exact ⟨(k, v), hv, rfl⟩

/-- C1: for every identity with no on-chain history (change pointer zero),
`resolve` succeeds and returns the default self-owned document — the owner is
the identity itself and the delegate and attribute lists are empty — and this
success outcome is distinct from any resolution error. -/
theorem resolve_empty_history (c : Chain) (id maxHops now : Nat)
    (h : c.state.changed id = 0) :
    resolve c id maxHops now = .ok (emptyDocument id) ∧
      ∀ err : ResolveError,
        (Except.ok (emptyDocument id) : Except ResolveError DIDDocument) ≠
          .error err := by
  constructor
  · have hwalk : walkHistory c id maxHops = .ok [] := by
      rw [walkHistory, h]
      exact walkAux_zero c.log id maxHops []
    rw [resolve, hwalk]
    rfl
  · intro err hcontra
    exact Except.noConfusion hcontra

theorem resolve_empty_history_witness :
    resolve (genesis 3 7) 1 5 0 = .ok (emptyDocument 1) :=
  (resolve_empty_history (genesis 3 7) 1 5 0 rfl).1

/-- C3: the Event History Walker terminates on every input — it stops
immediately when the cursor is zero, fails with `HistoryTruncatedError` when
the hop budget runs out at a nonzero cursor, always yields either a complete
history or that error (never a partial history passed off as complete), and on
a well-formed pointer chain a budget of at least the starting cursor suffices
to reach the chain's origin. -/
theorem walker_terminates :
    (∀ (log : List (Nat × Event)) (id fuel : Nat) (acc : List Event),
        walkAux log id 0 fuel acc = .ok acc) ∧
      (∀ (log : List (Nat × Event)) (id c : Nat) (acc : List Event), c ≠ 0 →
        walkAux log id c 0 acc = .error .historyTruncated) ∧
      (∀ (log : List (Nat × Event)) (id c fuel : Nat) (acc : List Event),
        (∃ h, walkAux log id c fuel acc = .ok h) ∨
          walkAux log id c fuel acc = .error .historyTruncated) ∧
      (∀ (log : List (Nat × Event)) (id c fuel : Nat) (acc : List Event),
        ValidChain log id c → c ≤ fuel →
        ∃ t, walkAux log id c fuel acc = .ok (acc ++ t)) :=
  ⟨fun log id fuel acc => walkAux_zero log id fuel acc,
    fun log id c acc hc => walkAux_out_of_fuel log id c acc hc,
    fun log id c fuel acc => walkAux_total log id c fuel acc,
    fun log id c fuel acc hv hle => walkAux_ok_of_validChain log id c hv fuel hle acc⟩

theorem walker_terminates_witness :
    walkAux [] 1 3 0 [] = .error .historyTruncated ∧
      ∃ t, walkAux [] 1 0 5 [] = .ok ([] ++ t) :=
  ⟨walker_terminates.2.1 [] 1 3 [] (by decide),
    walker_terminates.2.2.2 [] 1 0 5 [] ValidChain.zero (Nat.zero_le _)⟩

/-- C4: the DID State Reducer is deterministic over replays — reducing the
same oldest-first event sequence against the same fixed reduction clock a
second time yields an identical document. -/
theorem reducer_idempotent (id : Nat) (evs evs2 : List Event) (now now2 : Nat)
    (h1 : evs = evs2) (h2 : now = now2) :
    buildDocument (reduceEvents id evs now) =
      buildDocument (reduceEvents id evs2 now2) := by
  rw [h1, h2]

theorem reducer_idempotent_witness :
    buildDocument (reduceEvents 1 [Event.ownerChanged 1 2 0] 5) =
      buildDocument (reduceEvents 1 [Event.ownerChanged 1 2 0] 5) :=
  reducer_idempotent 1 [Event.ownerChanged 1 2 0] [Event.ownerChanged 1 2 0] 5 5
    rfl rfl

/-- C5: validity of every delegate and attribute in the reduced document is
decided by its most recent matching event against the fixed reduction clock —
the key appears in the resulting document exactly when the clock is strictly
below that event's `validTo`, so an entry whose `validTo` is past never
appears and one whose `validTo` is in the future always does. -/
theorem validity_window (id : Nat) (evs : List Event) (now : Nat) :
    (∀ (t : String) (d : Nat) (e : Event),
        (evs.filter (isDelegateEvent t d)).getLast? = some e →
        ((t, d) ∈ (buildDocument (reduceEvents id evs now)).delegates ↔
          now < e.validTo)) ∧
      (∀ (n val : String) (e : Event),
        (evs.filter (isAttributeEvent n val)).getLast? = some e →
        ((n, val) ∈ (buildDocument (reduceEvents id evs now)).attributes ↔
          now < e.validTo)) := by
  constructor
  · intro t d e h
    have hfield : (buildDocument (reduceEvents id evs now)).delegates =
        (reduceEvents id evs now).delegates.map Prod.fst := rfl
    rw [hfield, mem_map_fst]
    exact delegates_last_decides now t d evs _ e h
  · intro n val e h
    have hfield : (buildDocument (reduceEvents id evs now)).attributes =
        (reduceEvents id evs now).attributes.map Prod.fst := rfl
    rw [hfield, mem_map_fst]
    exact attributes_last_decides now n val evs _ e h

theorem validity_window_witness :
    (("sigAuth", 2) ∈
        (buildDocument
          (reduceEvents 1 [Event.delegateChanged 1 "sigAuth" 2 100 0] 50)).delegates ↔
      50 < Event.validTo (Event.delegateChanged 1 "sigAuth" 2 100 0)) :=
  (validity_window 1 [Event.delegateChanged 1 "sigAuth" 2 100 0] 50).1
    "sigAuth" 2 (Event.delegateChanged 1 "sigAuth" 2 100 0) (by decide)

/-- C9: `resolve` is deterministic and a pure function of on-chain state — two
invocations against chains with the same event log and the same change pointer
for the queried identifier, with the same hop budget and reduction clock,
return identical results, with no dependence on any other local state or on
prior calls. -/
theorem resolve_pure (c1 c2 : Chain) (id maxHops now : Nat)
    (hlog : c1.log = c2.log) (hch : c1.state.changed id = c2.state.changed id) :
    resolve c1 id maxHops now = resolve c2 id maxHops now := by
  rw [resolve, resolve, walkHistory, walkHistory, hlog, hch]

theorem resolve_pure_witness :
    resolve (genesis 0 0) 1 3 2 = resolve (genesis 5 9) 1 3 2 :=
  resolve_pure (genesis 0 0) (genesis 5 9) 1 3 2 rfl rfl

/-- C6: after a signed (meta-transaction) operation succeeds, the identity's
nonce has incremented, so resubmitting the identical signed payload — the same
signature over the same identity, parameters and the now-stale nonce — fails
with `ContractRevertError` ("bad nonce") instead of being applied a second
time. -/
theorem nonce_replay (c : Chain) (op : Op) (s : Sig)
    (hs : op.sigOf = some s) (hok : (step c op).isOk = true) :
    (stepResult c op).state.nonces op.identityOf =
        c.state.nonces op.identityOf + 1 ∧
      step (stepResult c op) op = .error (.contractRevert "bad nonce") := by
  have hstep : ∀ c' : Chain, step c' op =
      if s.nonce = c'.state.nonces op.identityOf then
        (if s.signer = identityOwner c'.state op.identityOf then
          .ok (stepResult c' op)
        else .error (.contractRevert "bad_signature"))
      else .error (.contractRevert "bad nonce") := by
    intro c'
    rw [step, hs]
  have hnonce : s.nonce = c.state.nonces op.identityOf := by
    by_contra h1
    rw [hstep c, if_neg h1] at hok
    exact Bool.false_ne_true hok
  have hres : stepResult c op = bumpNonce op.identityOf (applyOp c op) := by
    rw [stepResult, hs]
  have hupd : (stepResult c op).state.nonces op.identityOf =
      c.state.nonces op.identityOf + 1 := by
    rw [hres]
    have h3 : (bumpNonce op.identityOf (applyOp c op)).state.nonces op.identityOf =
        (applyOp c op).state.nonces op.identityOf + 1 := by
      have h4 : (bumpNonce op.identityOf (applyOp c op)).state.nonces op.identityOf =
          if op.identityOf = op.identityOf then
            (applyOp c op).state.nonces op.identityOf + 1
          else (applyOp c op).state.nonces op.identityOf := rfl
      rw [h4, if_pos rfl]
    have h5 : (applyOp c op).state.nonces = (stateUpdate c op c.state).nonces := rfl
    rw [h3, h5, stateUpdate_nonces]
  refine ⟨hupd, ?_⟩
  rw [hstep (stepResult c op), if_neg]
  rw [hupd, hnonce]
  omega

theorem nonce_replay_witness :
    (stepResult (genesis 0 0) (Op.changeOwnerSigned 1 2 ⟨1, 0⟩)).state.nonces 1 =
        (genesis 0 0).state.nonces 1 + 1 ∧
      step (stepResult (genesis 0 0) (Op.changeOwnerSigned 1 2 ⟨1, 0⟩))
          (Op.changeOwnerSigned 1 2 ⟨1, 0⟩) =
        .error (.contractRevert "bad nonce") :=
  nonce_replay (genesis 0 0) (Op.changeOwnerSigned 1 2 ⟨1, 0⟩) ⟨1, 0⟩ rfl (by rfl)

/-- C7: the change-pointer history chain is a preserved invariant of every
mutating operation — from an invariant-satisfying chain, a successful
operation keeps every identity's pointer chain well formed (acyclic and
strictly decreasing in block height, `ChainInv`), appends exactly one event
mined in the fresh block, that event's `previousChange` equals the identity's
change pointer immediately before the operation, and the change pointer is
atomically advanced to the new block. -/
theorem change_pointer_invariant (c : Chain) (op : Op)
    (hinv : ChainInv c) (_hok : (step c op).isOk = true) :
    ChainInv (stepResult c op) ∧
      (stepResult c op).log = (c.height + 1, eventFor c op) :: c.log ∧
      (eventFor c op).previousChange = c.state.changed op.identityOf ∧
      (stepResult c op).state.changed op.identityOf = c.height + 1 := by
  refine ⟨inv_stepResult c op hinv, ?_, Event.previousChange_eventFor c op, ?_⟩
  · rw [stepResult]
    cases op.sigOf <;> rfl
  · rw [stepResult]
    cases op.sigOf with
    | none => rw [applyOp_changed, if_pos rfl]
    | some s =>
        have hb : (bumpNonce op.identityOf (applyOp c op)).state.changed =
            (applyOp c op).state.changed := rfl
        rw [hb, applyOp_changed, if_pos rfl]

theorem change_pointer_invariant_witness :
    ChainInv (stepResult (genesis 0 0) (Op.changeOwner 1 1 2)) ∧
      (stepResult (genesis 0 0) (Op.changeOwner 1 1 2)).log =
        ((genesis 0 0).height + 1, eventFor (genesis 0 0) (Op.changeOwner 1 1 2)) ::
          (genesis 0 0).log ∧
      (eventFor (genesis 0 0) (Op.changeOwner 1 1 2)).previousChange =
        (genesis 0 0).state.changed 1 ∧
      (stepResult (genesis 0 0) (Op.changeOwner 1 1 2)).state.changed 1 =
        (genesis 0 0).height + 1 :=
  change_pointer_invariant (genesis 0 0) (Op.changeOwner 1 1 2)
    (genesis_inv 0 0) (by rfl)

theorem walk_after_applyOp (c : Chain) (op : Op) (hinv : ChainInv c) (f : Nat)
    (hle : c.height ≤ f) :
    ∃ t, walkAux (applyOp c op).log op.identityOf (c.height + 1) (f + 1) [] =
      .ok ([eventFor c op] ++ t) := by
  have hev := eventsAt_applyOp_top c op hinv
  have hvc := validChain_applyOp_prev c op hinv
  have hle2 : c.state.changed op.identityOf ≤ f := le_trans (hinv.bound _) hle
  obtain ⟨t, ht⟩ := walkAux_ok_of_validChain (applyOp c op).log op.identityOf
    (c.state.changed op.identityOf) hvc f hle2 [eventFor c op]
  refine ⟨t, ?_⟩
  rw [walkAux.eq_def, if_neg (Nat.succ_ne_zero _)]
  simp only [hev]
  have hmin : minPrev [eventFor c op] = (eventFor c op).previousChange := rfl
  rw [hmin, Event.previousChange_eventFor]
  exact ht

theorem resolve_after_applyOp (c : Chain) (op : Op) (hinv : ChainInv c) (f now : Nat)
    (hle : c.height ≤ f) :
    ∃ t : List Event, resolve (applyOp c op) op.identityOf (f + 1) now =
      .ok (buildDocument (reduceEvents op.identityOf
        (t.reverse ++ [eventFor c op]) now)) := by
  obtain ⟨t, ht⟩ := walk_after_applyOp c op hinv f hle
  refine ⟨t, ?_⟩
  rw [resolve, walkHistory, applyOp_changed, if_pos rfl, ht]
  show Except.ok (buildDocument (reduceEvents op.identityOf
    ([eventFor c op] ++ t).reverse now)) = _
  rw [List.reverse_append, List.reverse_singleton]

theorem owner_foldl_append_ownerChanged (now : Nat) (xs : List Event) (st : DocState)
    (i o p : Nat) :
    ((xs ++ [Event.ownerChanged i o p]).foldl (applyEvent now) st).owner = o := by
  rw [List.foldl_append]
  rfl

/-- C2: repeated ownership transfer chains are allowed — from any well-formed
chain, `changeOwner(id, B)` signed by the current owner `A` succeeds, after it
confirms `resolve(id)` reports owner `B`, a subsequent `changeOwner` signed by
the previous owner `A` reverts, and a further `changeOwner` signed by the
current owner `B` to any new owner (including `A`) succeeds — there is no
state in which ownership can no longer be changed. -/
theorem ownership_transfer (c : Chain) (id A B fuel now : Nat)
    (hinv : ChainInv c) (hA : identityOwner c.state id = A) (hAB : A ≠ B)
    (hfuel : c.height + 1 ≤ fuel) :
    (step c (Op.changeOwner A id B)).isOk = true ∧
      resolveOwner (stepResult c (Op.changeOwner A id B)) id fuel now = some B ∧
      (∀ C, (step (stepResult c (Op.changeOwner A id B))
        (Op.changeOwner A id C)).isOk = false) ∧
      (∀ C, (step (stepResult c (Op.changeOwner A id B))
        (Op.changeOwner B id C)).isOk = true) := by
  have hres : stepResult c (Op.changeOwner A id B) =
      applyOp c (Op.changeOwner A id B) := rfl
  have howner : identityOwner (stepResult c (Op.changeOwner A id B)).state id = B := by
    have h1 : (stepResult c (Op.changeOwner A id B)).state.owners id =
        if id = id then some B else c.state.owners id := rfl
    rw [identityOwner, h1, if_pos rfl]
    rfl
  refine ⟨?_, ?_, ?_, ?_⟩
  · have hstep1 : step c (Op.changeOwner A id B) =
        if A = identityOwner c.state id then
          .ok (stepResult c (Op.changeOwner A id B))
        else .error (.contractRevert "bad_actor") := rfl
    rw [hstep1, if_pos hA.symm]
    rfl
  · cases fuel with
    | zero => exact absurd hfuel (by omega)
    | succ f =>
        have hle : c.height ≤ f := Nat.le_of_succ_le_succ hfuel
        obtain ⟨t, ht⟩ :=
          resolve_after_applyOp c (Op.changeOwner A id B) hinv f now hle
        have ht2 : resolve (applyOp c (Op.changeOwner A id B)) id (f + 1) now =
            .ok (buildDocument (reduceEvents id
              (t.reverse ++ [eventFor c (Op.changeOwner A id B)]) now)) := ht
        rw [resolveOwner, hres, ht2]
        show some (buildDocument (reduceEvents id
          (t.reverse ++ [eventFor c (Op.changeOwner A id B)]) now)).owner = some B
        have hdoc : (buildDocument (reduceEvents id
            (t.reverse ++ [eventFor c (Op.changeOwner A id B)]) now)).owner =
          ((t.reverse ++ [Event.ownerChanged id B (c.state.changed id)]).foldl
            (applyEvent now) { owner := id, delegates := [], attributes := [] }).owner := rfl
    -- the emitted event is definitionally the DIDOwnerChanged record
        rw [hdoc, owner_foldl_append_ownerChanged]
  · intro C
    have hstep2 : step (stepResult c (Op.changeOwner A id B)) (Op.changeOwner A id C) =
        if A = identityOwner (stepResult c (Op.changeOwner A id B)).state id then
          .ok (stepResult (stepResult c (Op.changeOwner A id B)) (Op.changeOwner A id C))
        else .error (.contractRevert "bad_actor") := rfl
    rw [hstep2, howner, if_neg hAB]
    rfl
  · intro C
    have hstep3 : step (stepResult c (Op.changeOwner A id B)) (Op.changeOwner B id C) =
        if B = identityOwner (stepResult c (Op.changeOwner A id B)).state id then
          .ok (stepResult (stepResult c (Op.changeOwner A id B)) (Op.changeOwner B id C))
        else .error (.contractRevert "bad_actor") := rfl
    rw [hstep3, howner, if_pos rfl]
    rfl

theorem ownership_transfer_witness :
    (step (genesis 0 0) (Op.changeOwner 1 1 2)).isOk = true ∧
      resolveOwner (stepResult (genesis 0 0) (Op.changeOwner 1 1 2)) 1 1 0 = some 2 ∧
      (step (stepResult (genesis 0 0) (Op.changeOwner 1 1 2))
        (Op.changeOwner 1 1 1)).isOk = false ∧
      (step (stepResult (genesis 0 0) (Op.changeOwner 1 1 2))
        (Op.changeOwner 2 1 1)).isOk = true := by
  obtain ⟨w1, w2, w3, w4⟩ :=
    ownership_transfer (genesis 0 0) 1 1 2 1 0 (genesis_inv 0 0) rfl
      (by decide) (by decide)
  exact ⟨w1, w2, w3 1, w4 1⟩

/-- C8: the Reducer routes attributes into document sections by their name —
`did/pub/<KeyAlgo>/<Purpose>/<Encoding>` becomes a verification-method entry
and `did/svc/<ServiceName>` a service entry; in particular, for an identity
with no prior events, after `setAttribute(I, "did/svc/Messaging", url, ttl)`
confirms, `resolve(I)` contains exactly one service entry for "Messaging"
with that URL while the reduction clock is inside the validity window, and
none once the window has elapsed. -/
theorem attribute_service_routing (I h0 t0 : Nat) (url : String) (ttl now f : Nat) :
    (step (genesis h0 t0)
      (Op.setAttribute I I "did/svc/Messaging" url ttl)).isOk = true ∧
      resolveServices (stepResult (genesis h0 t0)
          (Op.setAttribute I I "did/svc/Messaging" url ttl)) I (f + 1) now =
        some (if now < t0 + ttl then [⟨"Messaging", url⟩] else []) ∧
      (∀ alg purpose enc : String, ('/' : Char) ∉ alg.data →
          ('/' : Char) ∉ purpose.data → ('/' : Char) ∉ enc.data →
          routeAttr ("did/pub/" ++ alg ++ "/" ++ purpose ++ "/" ++ enc) =
            AttrRoute.publicKey alg purpose enc) ∧
      (∀ svc : String, ('/' : Char) ∉ svc.data →
          routeAttr ("did/svc/" ++ svc) = AttrRoute.service svc) := by
  refine ⟨?_, ?_,
    fun alg purpose enc h1 h2 h3 => routeAttr_publicKey alg purpose enc h1 h2 h3,
    fun svc h => routeAttr_service svc h⟩
  · have hstep : step (genesis h0 t0) (Op.setAttribute I I "did/svc/Messaging" url ttl) =
        if I = I then
          .ok (stepResult (genesis h0 t0) (Op.setAttribute I I "did/svc/Messaging" url ttl))
        else .error (.contractRevert "bad_actor") := rfl
    rw [hstep, if_pos rfl]
    rfl
  · have hres1 : stepResult (genesis h0 t0) (Op.setAttribute I I "did/svc/Messaging" url ttl) =
        applyOp (genesis h0 t0) (Op.setAttribute I I "did/svc/Messaging" url ttl) := rfl
    have hwalk : walkAux
        (applyOp (genesis h0 t0) (Op.setAttribute I I "did/svc/Messaging" url ttl)).log
        I (h0 + 1) (f + 1) [] =
        .ok [eventFor (genesis h0 t0) (Op.setAttribute I I "did/svc/Messaging" url ttl)] := by
      rw [walkAux.eq_def, if_neg (Nat.succ_ne_zero _)]
      have hev : eventsAt
          (applyOp (genesis h0 t0) (Op.setAttribute I I "did/svc/Messaging" url ttl)).log
          I (h0 + 1) =
          [eventFor (genesis h0 t0) (Op.setAttribute I I "did/svc/Messaging" url ttl)] :=
        eventsAt_applyOp_top (genesis h0 t0) _ (genesis_inv h0 t0)
      simp only [hev]
      exact walkAux_zero _ _ _ _
    have hresolve : resolve
        (applyOp (genesis h0 t0) (Op.setAttribute I I "did/svc/Messaging" url ttl))
        I (f + 1) now =
        .ok (buildDocument (reduceEvents I
          [eventFor (genesis h0 t0) (Op.setAttribute I I "did/svc/Messaging" url ttl)]
          now)) := by
      rw [resolve, walkHistory]
      have hch : (applyOp (genesis h0 t0)
          (Op.setAttribute I I "did/svc/Messaging" url ttl)).state.changed I = h0 + 1 := by
        rw [applyOp_changed,
          if_pos (show I = (Op.setAttribute I I "did/svc/Messaging" url ttl).identityOf
            from rfl)]
        rfl
      rw [hch, hwalk]
      rfl
    rw [resolveServices, hres1, hresolve]
    show some (buildDocument (reduceEvents I
      [eventFor (genesis h0 t0) (Op.setAttribute I I "did/svc/Messaging" url ttl)]
      now)).services = _
    have happ : reduceEvents I
        [eventFor (genesis h0 t0) (Op.setAttribute I I "did/svc/Messaging" url ttl)] now =
        if now < t0 + ttl then
          { owner := I, delegates := [],
            attributes := setKey ("did/svc/Messaging", url) (t0 + ttl) [] }
        else
          { owner := I, delegates := [],
            attributes := removeKey ("did/svc/Messaging", url) [] } := rfl
    by_cases hnow : now < t0 + ttl
    · rw [if_pos hnow, happ, if_pos hnow]
      rfl
    · rw [if_neg hnow, happ, if_neg hnow]
      rfl

theorem attribute_service_routing_witness :
    (step (genesis 0 0)
      (Op.setAttribute 1 1 "did/svc/Messaging" "https://example.com" 3600)).isOk = true ∧
      resolveServices (stepResult (genesis 0 0)
          (Op.setAttribute 1 1 "did/svc/Messaging" "https://example.com" 3600)) 1 1 100 =
        some (if 100 < 0 + 3600 then [⟨"Messaging", "https://example.com"⟩] else []) ∧
      routeAttr ("did/pub/" ++ "Secp256k1" ++ "/" ++ "sigAuth" ++ "/" ++ "hex") =
        AttrRoute.publicKey "Secp256k1" "sigAuth" "hex" ∧
      routeAttr ("did/svc/" ++ "Messaging") = AttrRoute.service "Messaging" := by
  obtain ⟨w1, w2, w3, w4⟩ :=
    attribute_service_routing 1 0 0 "https://example.com" 3600 100 0
  exact ⟨w1, w2,
    w3 "Secp256k1" "sigAuth" "hex" (by decide) (by decide) (by decide),
    w4 "Messaging" (by decide)⟩

/-- Translated from the source (example.ts): a wallet as seen by the script —
a private key and the public key derived from it.  `ethers.Wallet.createRandom`
is modelled as drawing successive private keys from a stream, with the
external key derivation kept abstract. -/
structure WalletM where
  privateKey : String
  publicKey : String
deriving DecidableEq, Repr

/-- Translated from the source: the i-th `createRandom()` call against the
randomness stream `priv` and key derivation `pubOf`. -/
def createRandomWallet (priv : Nat → String) (pubOf : String → String) (i : Nat) :
    WalletM :=
  { privateKey := priv i, publicKey := pubOf (priv i) }

/-- JavaScript truthiness of an optional environment string: absent and empty
are falsy. -/
def truthy : Option String → Bool
  | none => false
  | some s => !s.isEmpty

/-- The values the script derives at startup. -/
structure EthrSetup where
  privateKey : String
  walletPublicKey : String
  identifier : String
  did : String
deriving DecidableEq, Repr

/-- Translated from the source (example.ts lines 57–64 / 200–207):
`const privateKey = METAMASK_PRIVATE_KEY ? METAMASK_PRIVATE_KEY :
ethers.Wallet.createRandom().privateKey` builds the signing wallet from that
key, and `const identifier = METAMASK_ADDRESS ? METAMASK_ADDRESS :
ethers.Wallet.createRandom().publicKey` independently draws another random
wallet; the EthrDID identifier (and hence `MyEthrDID.did` on goerli) is built
from `identifier`.  Each `createRandom()` consumes the next stream index in
evaluation order. -/
def buildEthrSetup (envPrivateKey envAddress : Option String)
    (priv : Nat → String) (pubOf : String → String) : EthrSetup :=
  let privateKey :=
    if truthy envPrivateKey then envPrivateKey.getD ""
    else (createRandomWallet priv pubOf 0).privateKey
  let draws := if truthy envPrivateKey then 0 else 1
  let identifier :=
    if truthy envAddress then envAddress.getD ""
    else (createRandomWallet priv pubOf draws).publicKey
  { privateKey := privateKey
    walletPublicKey := pubOf privateKey
    identifier := identifier
    did := "did:ethr:goerli:" ++ identifier }

/-- C10: with both environment variables absent, the signing key is the first
random draw and the identifier is the public key of the second, independent
draw — so the constructed DID identifier does not correspond to the signing
wallet whenever the two drawn public keys differ, and two runs over different
randomness streams produce different DIDs. -/
theorem env_fallback_independent (priv priv2 : Nat → String) (pubOf : String → String) :
    (buildEthrSetup none none priv pubOf).privateKey = priv 0 ∧
      (buildEthrSetup none none priv pubOf).walletPublicKey = pubOf (priv 0) ∧
      (buildEthrSetup none none priv pubOf).identifier = pubOf (priv 1) ∧
      (pubOf (priv 0) ≠ pubOf (priv 1) →
        (buildEthrSetup none none priv pubOf).identifier ≠
          (buildEthrSetup none none priv pubOf).walletPublicKey) ∧
      (pubOf (priv 1) ≠ pubOf (priv2 1) →
        (buildEthrSetup none none priv pubOf).did ≠
          (buildEthrSetup none none priv2 pubOf).did) := by
  refine ⟨rfl, rfl, rfl, ?_, ?_⟩
  · intro h hcontra
    exact h (Eq.symm hcontra)
  · intro h hcontra
    apply h
    rw [show (buildEthrSetup none none priv pubOf).did =
        "did:ethr:goerli:" ++ pubOf (priv 1) from rfl,
      show (buildEthrSetup none none priv2 pubOf).did =
        "did:ethr:goerli:" ++ pubOf (priv2 1) from rfl] at hcontra
    have hd := congrArg String.data hcontra
    rw [String.data_append, String.data_append] at hd
    have hcancel := List.append_cancel_left hd
    exact String.ext hcancel

theorem env_fallback_independent_witness :
    ((buildEthrSetup none none (fun n => if n = 0 then "a" else "b")
        (fun s => s)).identifier ≠
      (buildEthrSetup none none (fun n => if n = 0 then "a" else "b")
        (fun s => s)).walletPublicKey) ∧
      ((buildEthrSetup none none (fun n => if n = 0 then "a" else "b")
          (fun s => s)).did ≠
        (buildEthrSetup none none (fun _ => "c") (fun s => s)).did) := by
  obtain ⟨_, _, _, w4, w5⟩ :=
    env_fallback_independent (fun n => if n = 0 then "a" else "b")
      (fun _ => "c") (fun s => s)
  exact ⟨w4 (by decide), w5 (by decide)⟩

end EthrDid
